import Mathlib

/-!
# Verification of the zeta header-chain core (`zeta/headers.py`, `zeta/db/connection.py`)

Shallow embedding of the consensus-tracking core of the zeta SPV client:
header codec (target / difficulty / proof-of-work check), the sqlite-backed
header store (upsert-by-hash), and the fork-choice engine
(`store_header` / `batch_store_header`), together with proofs of the
specified properties.

Modelling conventions:
* Hex strings that denote 32-byte hashes (`hash`, `prev_block`) are modelled
  by their big-endian integer value (`Nat`); every stored hash comes out of
  `parse_header` as a fixed-width 64-hex-char string, so string equality in
  SQL coincides with equality of the integer values.
* The 4-byte `nbits` field is kept as its list of raw bytes (`List Nat`),
  exactly what `bytes.fromhex(header['nbits'])` produces.
* The double SHA-256 of the `riemann` library is an external primitive; the
  parser is parameterized over it (`H : List Nat → Nat`, the displayed
  big-endian integer value of the byte-reversed digest).
* The sqlite table `headers` (primary key `hash`) is a list of rows;
  `INSERT OR REPLACE` deletes every row with the conflicting key and appends
  the fresh row, which is exactly sqlite's REPLACE conflict resolution.
* Python exceptions are `Except`/`Option`; the boolean returned by the store
  functions is paired with the resulting table state.  A possible sqlite
  failure during the insert loop is modelled by a `dbFail` flag: when it
  fires, the exception is caught, `False` is returned and no commit happens,
  so the durable state is unchanged.
-/

namespace Zeta

/-- `riemann.utils.le2i`: little-endian bytes to integer. -/
def le2i (bs : List Nat) : Nat :=
  bs.foldr (fun b acc => b + 256 * acc) 0

/-- `riemann.utils.be2i`: big-endian bytes to integer. -/
def be2i (bs : List Nat) : Nat :=
  bs.foldl (fun acc b => 256 * acc + b) 0

/-- `make_target(nbits)` from `headers.py`:
`exponent = be2i(nbits[-1:]) - 3; floor(le2i(nbits[:-1]) * 0x100 ** exponent)`.
For `exponent ≥ 3` the Python computation stays in exact integers; for
`exponent < 3` it is `math.floor` of `mantissa * 256.0**(exponent-3)`, which
is exact in double precision (the mantissa is below `2^24` and the scale is a
power of two), i.e. the floor of the rational value — `Nat` division here. -/
def make_target (nbits : List Nat) : Nat :=
  let mantissa := le2i (nbits.take (nbits.length - 1))
  let exponent := be2i (nbits.drop (nbits.length - 1))
  if 3 ≤ exponent then
    mantissa * 256 ^ (exponent - 3)
  else
    mantissa / 256 ^ (3 - exponent)

/-- The byte literal `b'\xff\xff\x00\x1d'` of `parse_difficulty`:
the reference maximum-target bits. -/
def maxTargetBits : List Nat := [0xff, 0xff, 0x00, 0x1d]

/-- `parse_difficulty(nbits)` from `headers.py`:
`make_target(b'\xff\xff\x00\x1d') // make_target(nbits)`.
When `make_target nbits = 0` the Python `//` raises `ZeroDivisionError`,
modelled as `none`. -/
def parse_difficulty (nbits : List Nat) : Option Nat :=
  if make_target nbits = 0 then none
  else some (make_target maxTargetBits / make_target nbits)

/-- A parsed header dict as produced by `parse_header` (before any
`height` / `accumulated_work` key exists). -/
structure Header where
  hash : Nat
  version : Nat
  prev_block : Nat
  merkle_root : Nat
  timestamp : Nat
  nbits : List Nat
  nonce : Nat
  difficulty : Nat
  hex : List Nat
  deriving Repr, DecidableEq

/-- A row of the sqlite `headers` table (`connection.ensure_tables`): a
parsed header plus the `height` and `accumulated_work` columns. -/
structure Row extends Header where
  height : Nat
  accumulated_work : Nat
  deriving Repr, DecidableEq

/-- `check_work(header)` from `headers.py`:
`int(header['hash'], 16) <= make_target(bytes.fromhex(header['nbits']))`. -/
def check_work (h : Header) : Bool :=
  h.hash ≤ make_target h.nbits

/-- The sqlite `headers` table: one row per header. -/
abbrev Store := List Row

/-- `INSERT OR REPLACE INTO headers`: sqlite deletes every row conflicting
on the primary key `hash` and inserts the new row. -/
def insertOrReplace (r : Row) (s : Store) : Store :=
  s.filter (fun x => x.hash ≠ r.hash) ++ [r]

/-- `find_by_hash(hash)` from `headers.py`:
`SELECT * FROM headers WHERE hash = :hash`, first row or `None`. -/
def find_by_hash (h : Nat) (s : Store) : Option Row :=
  s.find? (fun r => r.hash = h)

/-- `find_by_height(height)` from `headers.py`:
`SELECT * FROM headers WHERE height = :height`. -/
def find_by_height (ht : Nat) (s : Store) : List Row :=
  s.filter (fun r => r.height = ht)

/-- `find_highest()` from `headers.py`:
`SELECT * FROM headers WHERE height = (SELECT max(height) FROM headers)`.
`max` of the empty table is NULL and `height = NULL` matches no row. -/
def find_highest (s : Store) : List Row :=
  match (s.map (fun r => r.height)).max? with
  | none => []
  | some m => s.filter (fun r => r.height = m)

/-- `find_heaviest()` from `headers.py`:
`SELECT * FROM headers WHERE accumulated_work =
(SELECT max(accumulated_work) FROM headers)`. -/
def find_heaviest (s : Store) : List Row :=
  match (s.map (fun r => r.accumulated_work)).max? with
  | none => []
  | some m => s.filter (fun r => r.accumulated_work = m)

/-- `parent_height_and_work(header)` from `headers.py`. -/
def parent_height_and_work (h : Header) (s : Store) : Nat × Nat :=
  match find_by_hash h.prev_block s with
  | some parent => (parent.height, parent.accumulated_work)
  | none => (0, 0)

/-- `store_header(header)` from `headers.py`, for an already-parsed dict.
`hw` is the optional `(height, accumulated_work)` pair: `none` models a dict
without a `'height'` key (the `if 'height' not in header` branch computes it
from the parent).  `dbFail` models a sqlite exception in the insert: it is
caught, `False` is returned and nothing is committed. -/
def store_header (h : Header) (hw : Option (Nat × Nat)) (s : Store)
    (dbFail : Bool) : Bool × Store :=
  if ¬ check_work h then (false, s)
  else
    let p :=
      match hw with
      | some p => p
      | none =>
        let pw := parent_height_and_work h s
        (pw.1 + 1, pw.2 + h.difficulty)
    if dbFail then (false, s)
    else (true, insertOrReplace ⟨h, p.1, p.2⟩ s)

/-- Error raised by `parse_header` (`ValueError` on a bad length, or the
`ZeroDivisionError` from `parse_difficulty` when the target is zero). -/
inductive FormatError where
  | badLength
  | divByZero
  deriving Repr, DecidableEq

/-- `parse_header(header)` from `headers.py`, over the decoded bytes of the
hex-string argument (a hex string of length 160 decodes to exactly 80 bytes,
so `len(header) != 160` is `raw.length ≠ 80`).  `H` is the external
`rutils.hash256` composed with byte-reversal and big-endian display. -/
def parse_header (H : List Nat → Nat) (raw : List Nat) :
    Except FormatError Header :=
  if raw.length ≠ 80 then .error .badLength
  else
    let nbits := (raw.drop 72).take 4
    match parse_difficulty nbits with
    | none => .error .divByZero
    | some d =>
      .ok
        { hash := H raw
          version := le2i (raw.take 4)
          prev_block := le2i ((raw.drop 4).take 32)
          merkle_root := be2i ((raw.drop 36).take 32)
          timestamp := le2i ((raw.drop 68).take 4)
          nbits := nbits
          nonce := be2i ((raw.drop 76).take 4)
          difficulty := d
          hex := raw }

/-- `store_header` applied to a raw hex string: the parse happens before the
`try` block, so a `parse_header` exception propagates with the table
untouched. -/
def store_header_raw (H : List Nat → Nat) (raw : List Nat) (s : Store)
    (dbFail : Bool) : Except FormatError Bool × Store :=
  match parse_header H raw with
  | .error e => (.error e, s)
  | .ok h =>
    let r := store_header h none s dbFail
    (.ok r.1, r.2)

/-- The tagging loop of `batch_store_header`:
`headers[i]['height'] = 0; headers[i]['accumulated_work'] = 0`. -/
def tagZero (h : Header) : Row := ⟨h, 0, 0⟩

/-- The scan-and-truncate loop of `batch_store_header` (lines 107–114): walk
the surviving headers for the first whose parent is in the store, seed its
height from the parent and its work from the parent's work plus
`headers[0]['difficulty']` (the difficulty of the FIRST survivor, as the code
does), then continue with the suffix starting at that header
(`headers = headers[i:]` drops everything before it).  When no header's
parent is in the store the loop finishes without `break` and the list is
left unchanged. -/
def seedScan (h0diff : Nat) (s : Store) : List Row → List Row
  | [] => []
  | h :: rest =>
    match find_by_hash h.prev_block s with
    | some parent =>
      { h with height := parent.height + 1,
               accumulated_work := parent.accumulated_work + h0diff } :: rest
    | none =>
      if rest.any (fun k => (find_by_hash k.prev_block s).isSome) then
        seedScan h0diff s rest
      else h :: rest

/-- One step of the backfill pass of `batch_store_header` (lines 116–124) at
index `j`: if the header is still at height 0 and the first batch member
whose hash equals its `prev_block` has positive height, inherit
height / work from it.  The Python loop mutates the list in place, so each
step sees the updates of the previous ones. -/
def backfillStep (hs : List Row) (j : Nat) : List Row :=
  match hs[j]? with
  | none => hs
  | some hdr =>
    if hdr.height = 0 then
      match hs.find? (fun k => k.hash = hdr.prev_block) with
      | some parent =>
        if 0 < parent.height then
          hs.set j { hdr with height := parent.height + 1,
                              accumulated_work :=
                                parent.accumulated_work + hdr.difficulty }
        else hs
      | none => hs
    else hs

/-- The backfill pass run for `n` more steps starting at index `j`.
`backfillStep` leaves the length unchanged, so running it once per index,
starting from `j = 0` with `n` the batch length, is exactly the Python
`for header in headers` loop with its in-place mutations. -/
def backfillAux : Nat → List Row → Nat → List Row
  | 0, hs, _ => hs
  | n + 1, hs, j => backfillAux n (backfillStep hs j) (j + 1)

/-- The single backfill pass of `batch_store_header` over a whole batch. -/
def backfill (hs : List Row) : List Row :=
  backfillAux hs.length hs 0

/-- The fully processed batch before the insert loop: tag every header with
height 0 / work 0, drop the ones failing `check_work`, run the
scan-and-truncate over the store, then the single backfill pass. -/
def batch_process (hs : List Header) (s : Store) : List Row :=
  let survivors := (hs.map tagZero).filter (fun r => check_work r.toHeader)
  let seeded :=
    match survivors with
    | [] => []
    | h0 :: _ => seedScan h0.difficulty s survivors
  backfill seeded

/-- `batch_store_header(headers)` from `headers.py`, for a batch of parsed
headers.  `dbFail` models a sqlite exception inside the `try`: it is caught,
`False` is returned and nothing is committed. -/
def batch_store_header (hs : List Header) (s : Store) (dbFail : Bool) :
    Bool × Store :=
  let processed := batch_process hs s
  if dbFail then (false, s)
  else (true, processed.foldl (fun st r => insertOrReplace r st) s)

/-! ### Specification-side characterizations

Used to state what the batch path persists, independently of the recursion
that implements it. -/

/-- The headers of a batch surviving the proof-of-work filter
(`headers = list(filter(check_work, headers))`), after the height-0 tagging. -/
def batchSurvivors (hs : List Header) : List Row :=
  (hs.map tagZero).filter (fun r => check_work r.toHeader)

/-- Index of the first row whose parent is in the store, and 0 when there
is none (`findIdx` returns the length in that case, where the scan loop of
the code finishes without truncating anything). -/
def scanIdx (s : Store) (l : List Row) : Nat :=
  let j := l.findIdx (fun r => (find_by_hash r.prev_block s).isSome)
  if j = l.length then 0 else j

/-- The suffix of the survivors that the scan-and-truncate step keeps:
everything from the first survivor whose parent is in the store onwards, and
the whole survivor list when no survivor's parent is in the store. -/
def keptSurvivors (hs : List Header) (s : Store) : List Row :=
  (batchSurvivors hs).drop (scanIdx s (batchSurvivors hs))

/-! ### Concrete test fixtures

Small headers over the maximum-target bits (so any small hash value passes
the work check), used to instantiate the theorems below. -/

/-- A header with the given hash, parent hash and difficulty, over the
maximum-target bits. -/
def exHeader (h p d : Nat) : Header :=
  ⟨h, 0, p, 0, 0, maxTargetBits, 0, d, []⟩

/-- A resolved genesis row: hash 100, height 0, accumulated work 0. -/
def exGenesis : Row := ⟨exHeader 100 777 1, 0, 0⟩

/-- A valid-work header whose parent (999) is in no store; difficulty 5. -/
def exOrphan : Header := exHeader 1 999 5

/-- A valid-work header extending `exGenesis`; difficulty 1. -/
def exChild : Header := exHeader 2 100 1

/-- A header failing `check_work`: its `nbits` make the target 0 while its
hash value is 1. -/
def exNoWork : Header := ⟨1, 0, 0, 0, 0, [0, 0, 0, 0], 0, 0, []⟩

/-- An 80-byte raw header: zero everywhere except the maximum-target `nbits`
at offset 72.  Its `prev_block` decodes to 0, absent from the empty store. -/
def exRaw80 : List Nat :=
  List.replicate 72 0 ++ [0xff, 0xff, 0x00, 0x1d] ++ [0, 0, 0, 0]

/-- A stand-in for the external double SHA-256: constantly 0, so the parsed
header always passes the work check against a positive target. -/
def zeroDigest : List Nat → Nat := fun _ => 0

/-! ## Theorems -/

/-- **C4.** `check_work header` is true iff the header's hash, as a
big-endian integer, is at most `make_target header.nbits`; and when
`check_work` is false, `store_header` returns failure with the store
untouched (the header is never persisted). -/
theorem claim_C4 (h : Header) (hw : Option (Nat × Nat)) (s : Store)
    (dbFail : Bool) :
    (check_work h = true ↔ h.hash ≤ make_target h.nbits) ∧
    (check_work h = false → store_header h hw s dbFail = (false, s)) := by
  constructor
  · simp [check_work]
  · intro hcw
    simp [store_header, hcw]

/-- **C4, witness.** `exNoWork` fails the work check and `store_header`
rejects it, leaving the empty store empty. -/
theorem claim_C4_witness :
    check_work exNoWork = false ∧
    store_header exNoWork none [] false = (false, []) :=
  ⟨by decide, (claim_C4 exNoWork none [] false).2 (by decide)⟩

/-- **C5 (amended).** For every `nbits` byte string, `make_target` is the
(floor of the) rational `mantissa * 256 ^ (exponent - 3)`, with the mantissa
the low bytes little-endian and the exponent the final byte; the value is
exact only when `exponent ≥ 3`, otherwise it is floored. -/
theorem claim_C5 (nbits : List Nat) :
    make_target nbits =
      (⌊(le2i (nbits.take (nbits.length - 1)) : ℚ) *
          (256 : ℚ) ^ ((be2i (nbits.drop (nbits.length - 1)) : ℤ) - 3)⌋).toNat := by
  unfold make_target
  set m := le2i (nbits.take (nbits.length - 1)) with hm
  set e := be2i (nbits.drop (nbits.length - 1)) with he
  by_cases h3 : 3 ≤ e
  · rw [if_pos h3]
    have hcast : ((e : ℤ) - 3) = ((e - 3 : ℕ) : ℤ) := by omega
    rw [hcast, zpow_natCast]
    rw [show ((m : ℚ) * (256 : ℚ) ^ (e - 3) = ((m * 256 ^ (e - 3) : ℕ) : ℚ)) by
      push_cast; ring]
    rw [Int.floor_natCast]
    exact (Int.toNat_natCast _).symm
  · rw [if_neg h3]
    have hcast : ((e : ℤ) - 3) = -(((3 - e : ℕ) : ℕ) : ℤ) := by omega
    rw [hcast, zpow_neg, zpow_natCast]
    rw [show ((m : ℚ) * ((256 : ℚ) ^ (3 - e))⁻¹ =
        (m : ℚ) / (((256 ^ (3 - e) : ℕ) : ℕ) : ℚ)) by push_cast; ring]
    rw [Int.floor_toNat, Nat.floor_div_nat, Nat.floor_natCast]

/-- **C5, counterexample.** At `nbits = [1, 0, 0, 0]` (mantissa 1, exponent
0) the code returns 0, but `mantissa * 256 ^ (exponent - 3) = 256⁻³ ≠ 0`:
the claimed identity fails whenever the exponent byte is below 3 and the
product is fractional. -/
theorem claim_C5_counterexample :
    ¬ ((make_target [1, 0, 0, 0] : ℚ) =
        (le2i ([1, 0, 0, 0].take 3) : ℚ) *
          (256 : ℚ) ^ ((be2i ([1, 0, 0, 0].drop 3) : ℤ) - 3)) := by
  have h1 : make_target [1, 0, 0, 0] = 0 := by decide
  have h2 : le2i ([1, 0, 0, 0].take 3) = 1 := by decide
  have h3 : be2i ([1, 0, 0, 0].drop 3) = 0 := by decide
  rw [h1, h2, h3]
  intro hcon
  rw [show (((0 : ℕ) : ℤ) - 3) = -(3 : ℤ) by norm_num, zpow_neg] at hcon
  norm_num at hcon

/-- **C6.** `parse_difficulty` of the reference maximum-target bits is
exactly 1, and whenever the target is nonzero (so the Python `//` does not
raise), `parse_difficulty nbits` is the integer quotient of the reference
maximum target by `make_target nbits`. -/
theorem claim_C6 :
    parse_difficulty maxTargetBits = some 1 ∧
    ∀ nbits : List Nat, make_target nbits ≠ 0 →
      parse_difficulty nbits =
        some (make_target maxTargetBits / make_target nbits) := by
  constructor
  · decide
  · intro nbits hne
    simp [parse_difficulty, hne]

/-- **C6, witness.** Instantiated at the maximum-target bits themselves. -/
theorem claim_C6_witness :
    make_target maxTargetBits ≠ 0 ∧
    parse_difficulty maxTargetBits =
      some (make_target maxTargetBits / make_target maxTargetBits) :=
  ⟨by decide, claim_C6.2 maxTargetBits (by decide)⟩

/-- **C7.** For every input whose decoded length is not exactly 80 bytes,
`parse_header` fails with the bad-length error, and feeding such an input to
`store_header` propagates the error with the store untouched: no such input
is ever persisted. -/
theorem claim_C7 (H : List Nat → Nat) (raw : List Nat) (s : Store)
    (dbFail : Bool) (hlen : raw.length ≠ 80) :
    parse_header H raw = .error .badLength ∧
    store_header_raw H raw s dbFail = (.error .badLength, s) := by
  have hp : parse_header H raw = .error .badLength := by
    simp [parse_header, hlen]
  exact ⟨hp, by simp [store_header_raw, hp]⟩

/-- **C7, witness.** A 2-byte input is rejected and the store survives. -/
theorem claim_C7_witness :
    ([2, 3] : List Nat).length ≠ 80 ∧
    parse_header zeroDigest [2, 3] = .error .badLength ∧
    store_header_raw zeroDigest [2, 3] [exGenesis] false =
      (.error .badLength, [exGenesis]) :=
  ⟨by decide, (claim_C7 zeroDigest [2, 3] [exGenesis] false (by decide)).1,
    (claim_C7 zeroDigest [2, 3] [exGenesis] false (by decide)).2⟩

/-- **C8.** Both store functions return an explicit boolean: a storage
failure during the insert is caught and reported as `false` with nothing
committed; on success they return `true`; a header failing proof-of-work
yields `false` in single-header mode but is dropped silently in batch mode
(the batch still returns `true`). -/
theorem claim_C8 (h : Header) (hw : Option (Nat × Nat)) (hs : List Header)
    (s : Store) :
    store_header h hw s true = (false, s) ∧
    (check_work h = false → store_header h hw s false = (false, s)) ∧
    (check_work h = true → (store_header h hw s false).1 = true) ∧
    batch_store_header hs s true = (false, s) ∧
    (batch_store_header hs s false).1 = true := by
  refine ⟨?_, ?_, ?_, ?_, ?_⟩
  · by_cases hcw : check_work h <;> simp [store_header, hcw]
  · intro hcw; simp [store_header, hcw]
  · intro hcw; simp [store_header, hcw]
  · simp [batch_store_header]
  · simp [batch_store_header]

/-- **C8, witness.** A valid header is accepted (`true`); an invalid one is
rejected (`false`) in single mode even with an explicit height pair. -/
theorem claim_C8_witness :
    check_work exChild = true ∧ (store_header exChild none [] false).1 = true ∧
    check_work exNoWork = false ∧
    store_header exNoWork (some (3, 4)) [] false = (false, []) :=
  ⟨by decide, (claim_C8 exChild none [] []).2.2.1 (by decide), by decide,
    (claim_C8 exNoWork (some (3, 4)) [] []).2.1 (by decide)⟩

/-! ### Upsert lemmas -/

/-- Unfolding a lookup over a cons cell. -/
theorem find_by_hash_cons (a : Row) (t : Store) (x : Nat) :
    find_by_hash x (a :: t) =
      if a.hash = x then some a else find_by_hash x t := by
  unfold find_by_hash
  rw [List.find?_cons]
  by_cases hax : a.hash = x
  · simp [hax]
  · simp [hax]

/-- An upsert walks past a row with a different key. -/
theorem insertOrReplace_cons_ne (r a : Row) (t : Store)
    (hac : a.hash ≠ r.hash) :
    insertOrReplace r (a :: t) = a :: insertOrReplace r t := by
  unfold insertOrReplace
  rw [List.filter_cons]
  simp [hac]

/-- An upsert deletes a row carrying the conflicting key. -/
theorem insertOrReplace_cons_eq (r a : Row) (t : Store)
    (hac : a.hash = r.hash) :
    insertOrReplace r (a :: t) = insertOrReplace r t := by
  unfold insertOrReplace
  rw [List.filter_cons]
  simp [hac]

/-- `find_by_hash` after an upsert: the upserted key returns the fresh row,
every other key is unaffected. -/
theorem find_by_hash_insertOrReplace (r : Row) (s : Store) (x : Nat) :
    find_by_hash x (insertOrReplace r s) =
      if x = r.hash then some r else find_by_hash x s := by
  induction s with
  | nil =>
    by_cases hx : x = r.hash
    · simp [insertOrReplace, find_by_hash, List.find?_cons, hx]
    · have hrx : ¬ r.hash = x := fun h => hx h.symm
      simp [insertOrReplace, find_by_hash, List.find?_cons, hrx, hx]
  | cons a t ih =>
    by_cases hac : a.hash = r.hash
    · rw [insertOrReplace_cons_eq r a t hac, ih, find_by_hash_cons]
      by_cases hx : x = r.hash
      · rw [if_pos hx, if_pos hx]
      · have hax : ¬ a.hash = x := fun h => hx (h.symm.trans hac)
        rw [if_neg hx, if_neg hx, if_neg hax]
    · rw [insertOrReplace_cons_ne r a t hac, find_by_hash_cons, ih,
        find_by_hash_cons]
      by_cases hax : a.hash = x
      · have hx : ¬ x = r.hash := fun h => hac (hax.trans h)
        rw [if_pos hax, if_neg hx, if_pos hax]
      · rw [if_neg hax]
        by_cases hx : x = r.hash
        · rw [if_pos hx, if_pos hx]
        · rw [if_neg hx, if_neg hx, if_neg hax]

/-- Upserting the same row twice is the same as upserting it once. -/
theorem insertOrReplace_idem (r : Row) (s : Store) :
    insertOrReplace r (insertOrReplace r s) = insertOrReplace r s := by
  unfold insertOrReplace
  rw [List.filter_append, List.filter_filter]
  simp [List.filter_cons, Bool.and_self]

/-- After an upsert the table holds exactly one row with the upserted key. -/
theorem countP_hash_insertOrReplace (r : Row) (s : Store) :
    (insertOrReplace r s).countP (fun x => x.hash = r.hash) = 1 := by
  unfold insertOrReplace
  rw [List.countP_append, List.countP_filter]
  have h0 : s.countP (fun a => decide (a.hash = r.hash) &&
      decide (a.hash ≠ r.hash)) = 0 := by
    rw [List.countP_eq_zero]
    intro a _
    by_cases h : a.hash = r.hash <;> simp [h]
  simp [h0, List.countP_cons]

/-- **C9.** Re-storing an already-stored header by the same hash is
idempotent: storing the same header twice in a row leaves the table equal to
storing it once, the table holds no duplicate row for that hash, and the
lookup returns the latest written values.  (The hypothesis
`prev_block ≠ hash` rules out a header that is its own parent, impossible
for a real hash chain.) -/
theorem claim_C9 (h : Header) (s : Store) (hne : h.prev_block ≠ h.hash)
    (hcw : check_work h = true) :
    (store_header h none (store_header h none s false).2 false).2 =
        (store_header h none s false).2 ∧
    (store_header h none s false).2.countP (fun r => r.hash = h.hash) = 1 ∧
    (find_by_hash h.hash (store_header h none s false).2).map Row.toHeader =
      some h := by
  have hstep : ∀ t : Store, store_header h none t false =
      (true, insertOrReplace
        ⟨h, (parent_height_and_work h t).1 + 1,
            (parent_height_and_work h t).2 + h.difficulty⟩ t) := by
    intro t
    simp [store_header, hcw]
  have hrow : ∀ a b : Nat, (⟨h, a, b⟩ : Row).hash = h.hash := fun _ _ => rfl
  have hpar : ∀ (a b : Nat) (t : Store),
      parent_height_and_work h (insertOrReplace ⟨h, a, b⟩ t) =
        parent_height_and_work h t := by
    intro a b t
    unfold parent_height_and_work
    rw [find_by_hash_insertOrReplace, if_neg (by simpa [hrow] using hne)]
  refine ⟨?_, ?_, ?_⟩
  · rw [hstep s]
    rw [hstep (insertOrReplace _ s)]
    simp only [hpar]
    exact insertOrReplace_idem _ _
  · rw [hstep s]
    simpa using countP_hash_insertOrReplace
      ⟨h, (parent_height_and_work h s).1 + 1,
          (parent_height_and_work h s).2 + h.difficulty⟩ s
  · rw [hstep s]
    simp only []
    rw [show h.hash = (⟨h, (parent_height_and_work h s).1 + 1,
          (parent_height_and_work h s).2 + h.difficulty⟩ : Row).hash from rfl,
      find_by_hash_insertOrReplace, if_pos rfl]
    rfl

/-- **C9, witness.** Storing `exChild` twice over the genesis store equals
storing it once. -/
theorem claim_C9_witness :
    exChild.prev_block ≠ exChild.hash ∧ check_work exChild = true ∧
    (store_header exChild none
        (store_header exChild none [exGenesis] false).2 false).2 =
      (store_header exChild none [exGenesis] false).2 :=
  ⟨by decide, by decide,
    (claim_C9 exChild [exGenesis] (by decide) (by decide)).1⟩

/-- **C10.** On the empty store `find_heaviest` and `find_highest` return
the empty list (SQL `max` is NULL there and matches no row); on a non-empty
store `find_heaviest` returns exactly the stored rows whose accumulated work
is maximal — all of them when several tie. -/
theorem claim_C10 :
    find_heaviest ([] : Store) = [] ∧ find_highest ([] : Store) = [] ∧
    ∀ (s : Store) (r : Row), s ≠ [] →
      (r ∈ find_heaviest s ↔
        r ∈ s ∧ ∀ x ∈ s, x.accumulated_work ≤ r.accumulated_work) := by
  refine ⟨rfl, rfl, ?_⟩
  intro s r hs
  obtain ⟨m, hm⟩ : ∃ m, (s.map (fun r => r.accumulated_work)).max? = some m := by
    cases hmax : (s.map fun r => r.accumulated_work).max? with
    | none =>
      rw [List.max?_eq_none_iff] at hmax
      simp only [List.map_eq_nil_iff] at hmax
      exact absurd hmax hs
    | some m => exact ⟨m, rfl⟩
  obtain ⟨hmem, hle⟩ := (List.max?_eq_some_iff (fun a => le_refl a)
    (fun a b => max_choice a b) (fun a b c => max_le_iff)).1 hm
  unfold find_heaviest
  rw [hm]
  simp only [List.mem_filter, decide_eq_true_eq]
  constructor
  · rintro ⟨hrs, hrm⟩
    refine ⟨hrs, fun x hx => ?_⟩
    have := hle _ (List.mem_map_of_mem _ hx)
    omega
  · rintro ⟨hrs, hall⟩
    refine ⟨hrs, ?_⟩
    obtain ⟨y, hy, hym⟩ := List.mem_map.1 hmem
    have h1 : m ≤ r.accumulated_work := hym ▸ hall y hy
    have h2 : r.accumulated_work ≤ m := hle _ (List.mem_map_of_mem _ hrs)
    omega

/-- **C10, witness.** The one-row store picks its row as heaviest. -/
theorem claim_C10_witness :
    ([exGenesis] : Store) ≠ [] ∧
    (exGenesis ∈ find_heaviest [exGenesis] ↔
      exGenesis ∈ ([exGenesis] : Store) ∧
      ∀ x ∈ ([exGenesis] : Store),
        x.accumulated_work ≤ exGenesis.accumulated_work) :=
  ⟨by decide, claim_C10.2.2 [exGenesis] exGenesis (by decide)⟩

/-- **C1, code evaluated at the failing batch.**  In the batch
`[exOrphan, exChild]` over a store holding only `exGenesis`, the scan finds
`exChild` (parent in store, own difficulty 1) as the first surviving header
with a known parent, yet seeds its accumulated work as
`parent.accumulated_work + exOrphan.difficulty = 0 + 5`, using the FIRST
survivor's difficulty (`headers[0]['difficulty']`) instead of its own:
the claim demands `0 + 1`. -/
theorem claim_C1_eval :
    check_work exChild = true ∧ exChild.difficulty = 1 ∧
    exOrphan.difficulty = 5 ∧
    find_by_hash exChild.prev_block [exGenesis] = some exGenesis ∧
    exGenesis.accumulated_work = 0 ∧ exGenesis.height = 0 ∧
    find_by_hash exChild.hash
        (batch_store_header [exOrphan, exChild] [exGenesis] false).2 =
      some ⟨exChild, 1, 5⟩ := by
  decide

/-- **C3, code evaluated at the failing input.**  Storing the raw header
`exRaw80`, whose parent is absent from the empty store, persists it with
`height = 0 + 1 = 1` and `accumulated_work = 0 + difficulty = 1` — the
unconditional `parent_height + 1` of `store_header` — not with the
`height = 0, accumulated_work = 0` placeholder the claim states. -/
theorem claim_C3_eval :
    (store_header_raw zeroDigest exRaw80 ([] : Store) false).1 = .ok true ∧
    (store_header_raw zeroDigest exRaw80 ([] : Store) false).2.map
        (fun r => (r.height, r.accumulated_work)) = [(1, 1)] :=
  ⟨rfl, rfl⟩

/-- **C2, counterexample.**  `exOrphan` passes `check_work` and is not in
the store, yet after `batch_store_header [exOrphan, exChild]` it is still
absent: the scan finds `exChild`'s parent at index 1 and
`headers = headers[i:]` drops the surviving header before it.  This refutes
"every header that passes check_work is persisted". -/
theorem claim_C2_counterexample :
    check_work exOrphan = true ∧
    find_by_hash exOrphan.hash ([exGenesis] : Store) = none ∧
    find_by_hash exOrphan.hash
        (batch_store_header [exOrphan, exChild] [exGenesis] false).2 =
      none := by
  decide

/-! ### Batch pipeline lemmas -/

/-- Setting an index to the value it already holds is the identity. -/
theorem set_self_of_getElem? {α : Type} (l : List α) (j : Nat) (a : α)
    (h : l[j]? = some a) : l.set j a = l := by
  apply List.ext_getElem?
  intro n
  rw [List.getElem?_set]
  split
  · next he =>
    subst he
    split
    · next => exact h.symm
    · next hlen =>
      rw [List.getElem?_eq_none (by omega)] at h
      exact Option.noConfusion h
  · rfl

/-- A backfill step never changes the sequence of hashes. -/
theorem backfillStep_map_hash (hs : List Row) (j : Nat) :
    (backfillStep hs j).map (fun r => r.hash) = hs.map (fun r => r.hash) := by
  cases hj : hs[j]? with
  | none => simp only [backfillStep, hj]
  | some hdr =>
    simp only [backfillStep, hj]
    split
    · cases hf : hs.find? (fun k => k.hash = hdr.prev_block) with
      | none => simp only [hf]
      | some parent =>
        simp only [hf]
        split
        · rw [List.map_set]
          apply set_self_of_getElem?
          rw [List.getElem?_map, hj]
          rfl
        · rfl
    · rfl

/-- The whole backfill pass never changes the sequence of hashes. -/
theorem backfillAux_map_hash (n : Nat) :
    ∀ (hs : List Row) (j : Nat),
      (backfillAux n hs j).map (fun r => r.hash) =
        hs.map (fun r => r.hash) := by
  induction n with
  | zero => intro hs j; rfl
  | succ n ih =>
    intro hs j
    show (backfillAux n (backfillStep hs j) (j + 1)).map _ = _
    rw [ih, backfillStep_map_hash]

/-- `backfill` preserves the sequence of hashes. -/
theorem backfill_map_hash (hs : List Row) :
    (backfill hs).map (fun r => r.hash) = hs.map (fun r => r.hash) :=
  backfillAux_map_hash _ _ _

/-- The scan-and-truncate loop keeps exactly the suffix of the list from
the first row whose parent is in the store (the whole list when there is
none), up to the height/work seeding of the anchor row. -/
theorem seedScan_map_hash (d : Nat) (s : Store) (l : List Row) :
    (seedScan d s l).map (fun r => r.hash) =
      (l.drop (scanIdx s l)).map (fun r => r.hash) := by
  induction l with
  | nil => rfl
  | cons h rest ih =>
    cases hf : find_by_hash h.prev_block s with
    | some parent =>
      have hp : ((find_by_hash h.prev_block s).isSome : Bool) = true := by
        rw [hf]; rfl
      have h1 : scanIdx s (h :: rest) = 0 := by
        unfold scanIdx
        rw [List.findIdx_cons, hp]
        simp only [cond_true]
        rw [if_neg (by simp [List.length_cons])]
      simp only [seedScan, hf, h1, List.drop_zero, List.map_cons]
    | none =>
      have hp : ((find_by_hash h.prev_block s).isSome : Bool) = false := by
        rw [hf]; rfl
      by_cases hany :
          rest.any (fun k => (find_by_hash k.prev_block s).isSome) = true
      · have hjlt : rest.findIdx
            (fun r => (find_by_hash r.prev_block s).isSome) < rest.length := by
          apply List.findIdx_lt_length_of_exists
          obtain ⟨x, hx, hpx⟩ := List.any_eq_true.1 hany
          exact ⟨x, hx, hpx⟩
        have h1 : scanIdx s (h :: rest) =
            rest.findIdx (fun r => (find_by_hash r.prev_block s).isSome) + 1 := by
          unfold scanIdx
          rw [List.findIdx_cons, hp]
          simp only [cond_false]
          rw [if_neg (by simp only [List.length_cons]; omega)]
        have h2 : scanIdx s rest =
            rest.findIdx (fun r => (find_by_hash r.prev_block s).isSome) := by
          unfold scanIdx
          rw [if_neg (by omega)]
        simp only [seedScan, hf, hany, if_true]
        rw [ih, h1, h2, List.drop_succ_cons]
      · have hany' : (rest.any
            fun k => (find_by_hash k.prev_block s).isSome) = false := by
          cases hb : rest.any fun k => (find_by_hash k.prev_block s).isSome
          · rfl
          · exact absurd hb hany
        have hjr : rest.findIdx
            (fun r => (find_by_hash r.prev_block s).isSome) = rest.length := by
          rw [List.findIdx_eq_length]
          intro x hx
          by_contra hc
          exact hany (List.any_eq_true.2
            ⟨x, hx, by
              cases hpx : ((find_by_hash x.prev_block s).isSome : Bool) with
              | true => rfl
              | false => exact absurd hpx hc⟩)
        have h1 : scanIdx s (h :: rest) = 0 := by
          unfold scanIdx
          rw [List.findIdx_cons, hp]
          simp only [cond_false, hjr]
          rw [if_pos (by simp [List.length_cons])]
        simp only [seedScan, hf, hany', h1, List.drop_zero]
        rfl

/-- Every row of the table after the batch insert loop was either already
stored or comes from the inserted list. -/
theorem mem_foldl_insertOrReplace (l : List Row) (s : Store) (r : Row) :
    r ∈ l.foldl (fun st x => insertOrReplace x st) s → r ∈ s ∨ r ∈ l := by
  induction l generalizing s with
  | nil => exact fun h => Or.inl h
  | cons a t ih =>
    intro h
    rw [List.foldl_cons] at h
    rcases ih (insertOrReplace a s) h with h1 | h2
    · unfold insertOrReplace at h1
      rcases List.mem_append.1 h1 with h3 | h4
      · exact Or.inl (List.mem_of_mem_filter h3)
      · rw [List.mem_singleton.1 h4]
        exact Or.inr (List.mem_cons_self a t)
    · exact Or.inr (List.mem_cons_of_mem a h2)

/-- Upserts never delete a key: a hash present in the table is still present
after the batch insert loop. -/
theorem exists_hash_foldl_of_store (l : List Row) (s : Store) (c : Nat)
    (h : ∃ r ∈ s, r.hash = c) :
    ∃ r ∈ l.foldl (fun st x => insertOrReplace x st) s, r.hash = c := by
  induction l generalizing s with
  | nil => exact h
  | cons a t ih =>
    rw [List.foldl_cons]
    apply ih
    obtain ⟨r, hr, hrc⟩ := h
    by_cases hca : c = a.hash
    · refine ⟨a, ?_, hca.symm⟩
      unfold insertOrReplace
      exact List.mem_append_right _ (List.mem_singleton.2 rfl)
    · refine ⟨r, ?_, hrc⟩
      unfold insertOrReplace
      apply List.mem_append_left
      exact List.mem_filter.2 ⟨hr, decide_eq_true (by rw [hrc]; exact hca)⟩

/-- Every hash of the inserted list is present in the table after the batch
insert loop. -/
theorem exists_hash_foldl (l : List Row) (s : Store) (c : Nat)
    (h : ∃ y ∈ l, y.hash = c) :
    ∃ r ∈ l.foldl (fun st x => insertOrReplace x st) s, r.hash = c := by
  induction l generalizing s with
  | nil =>
    obtain ⟨y, hy, _⟩ := h
    exact absurd hy (List.not_mem_nil y)
  | cons a t ih =>
    rw [List.foldl_cons]
    obtain ⟨y, hy, hyc⟩ := h
    rcases List.mem_cons.1 hy with rfl | hyt
    · apply exists_hash_foldl_of_store
      refine ⟨y, ?_, hyc⟩
      unfold insertOrReplace
      exact List.mem_append_right _ (List.mem_singleton.2 rfl)
    · exact ih _ ⟨y, hyt, hyc⟩

/-- The processed batch carries exactly the hashes of the kept survivors:
the work filter, the truncation suffix, the seeding and the backfill change
no hash. -/
theorem batch_process_map_hash (hs : List Header) (s : Store) :
    (batch_process hs s).map (fun r => r.hash) =
      (keptSurvivors hs s).map (fun r => r.hash) := by
  unfold batch_process keptSurvivors batchSurvivors
  rw [backfill_map_hash]
  cases hsv : (hs.map tagZero).filter (fun r => check_work r.toHeader) with
  | nil => rfl
  | cons h0 t =>
    rw [seedScan_map_hash]

/-- **C2 (amended).** In a batch, a header failing `check_work` is dropped;
among the survivors, when the in-order scan finds a first header whose
parent is already in the store, the survivors preceding it are ALSO dropped
(the code truncates `headers = headers[i:]`); every survivor from that
anchor onwards — every survivor, when no parent is found — is persisted,
and every row of the resulting table was either already stored or carries
the hash of a kept survivor. -/
theorem claim_C2_amended (hs : List Header) (s : Store) :
    (∀ r ∈ (batch_store_header hs s false).2,
        r ∈ s ∨ r.hash ∈ (keptSurvivors hs s).map (fun x => x.hash)) ∧
    (∀ x ∈ keptSurvivors hs s,
        ∃ r ∈ (batch_store_header hs s false).2, r.hash = x.hash) := by
  have hres : (batch_store_header hs s false).2 =
      (batch_process hs s).foldl (fun st r => insertOrReplace r st) s := by
    simp [batch_store_header]
  constructor
  · intro r hr
    rw [hres] at hr
    rcases mem_foldl_insertOrReplace _ _ _ hr with h1 | h2
    · exact Or.inl h1
    · right
      rw [← batch_process_map_hash]
      exact List.mem_map_of_mem _ h2
  · intro x hx
    rw [hres]
    apply exists_hash_foldl
    have hxm : x.hash ∈ (batch_process hs s).map (fun r => r.hash) := by
      rw [batch_process_map_hash]
      exact List.mem_map_of_mem _ hx
    obtain ⟨y, hy, hyx⟩ := List.mem_map.1 hxm
    exact ⟨y, hy, hyx⟩

/-- **C2, witness.** In the counterexample batch, the kept survivor
`exChild` is indeed persisted. -/
theorem claim_C2_witness :
    (⟨exChild, 0, 0⟩ : Row) ∈ keptSurvivors [exOrphan, exChild] [exGenesis] ∧
    ∃ r ∈ (batch_store_header [exOrphan, exChild] [exGenesis] false).2,
      r.hash = (⟨exChild, 0, 0⟩ : Row).hash :=
  ⟨by decide, (claim_C2_amended [exOrphan, exChild] [exGenesis]).2
    ⟨exChild, 0, 0⟩ (by decide)⟩

end Zeta
